import Mathlib

set_option maxRecDepth 2000000

deriving instance DecidableEq for Except

/-!
Shallow embedding of the proof-of-work search engine in
`src/cracker/src/rust.rs` (`generate_valid_string` and
`generate_valid_string_one_thread`).

Modelling conventions:
* Strings and byte buffers are `List Nat`, each element a byte value `< 256`
  (`String::into_bytes` / `from_utf8` are identified with the byte lists).
* `u32`/`u128` arithmetic is `Nat`; the program's values never approach the
  wrap-around points relevant to the claims, and where a bound matters it is
  stated explicitly.
* Rust panics (out-of-bounds indexing, `unwrap` on a poisoned join) are
  modelled as `Except.error ()`.
* The shared `AtomicBool` cancellation flag is modelled by a schedule
  `flags : Nat → Bool` giving the value a worker observes when it reads the
  flag during iteration `i`; quantifying over all schedules over-approximates
  every concurrent interleaving of relaxed loads.
* `openssl::sha::sha1` is embedded as the standard SHA-1 algorithm below
  (160-bit digest as a list of 20 bytes).
-/

namespace Cracker

/-! ### SHA-1 (embedding of `openssl::sha::sha1`) -/

/-- `2^32`, the modulus for SHA-1 word arithmetic. -/
def w32 : Nat := 4294967296

/-- Left-rotation of a 32-bit word (`x < 2^32`). -/
def rotl32 (n x : Nat) : Nat := ((x <<< n) % w32) ||| (x >>> (32 - n))

/-- The SHA-1 round constant for round `t`. -/
def sha1K (t : Nat) : Nat :=
  if t < 20 then 0x5A827999
  else if t < 40 then 0x6ED9EBA1
  else if t < 60 then 0x8F1BBCDC
  else 0xCA62C1D6

/-- The SHA-1 round function for round `t`. -/
def sha1F (t b c d : Nat) : Nat :=
  if t < 20 then (b &&& c) ||| ((b ^^^ 0xFFFFFFFF) &&& d)
  else if t < 40 then b ^^^ c ^^^ d
  else if t < 60 then (b &&& c) ||| (b &&& d) ||| (c &&& d)
  else b ^^^ c ^^^ d

/-- Big-endian 32-bit words from a list of bytes (4 bytes per word). -/
def bytesToWords : List Nat → List Nat
  | b0 :: b1 :: b2 :: b3 :: rest =>
      (((b0 * 256 + b1) * 256 + b2) * 256 + b3) :: bytesToWords rest
  | _ => []

/-- Message-schedule extension: prepend `n` further words to the reversed
word list `rws` (`rws.head` is the most recent word `w[i-1]`). -/
def extendWords : Nat → List Nat → List Nat
  | 0, rws => rws
  | n + 1, rws =>
      let w := rotl32 1 (((rws.getD 2 0) ^^^ (rws.getD 7 0)) ^^^
        ((rws.getD 13 0) ^^^ (rws.getD 15 0)))
      extendWords n (w :: rws)

/-- The 80 compression rounds, folding over `(round index, schedule word)`. -/
def sha1Rounds : List (Nat × Nat) → Nat × Nat × Nat × Nat × Nat → Nat × Nat × Nat × Nat × Nat
  | [], s => s
  | (t, w) :: rest, (a, b, c, d, e) =>
      let temp := (rotl32 5 a + sha1F t b c d + e + sha1K t + w) % w32
      sha1Rounds rest (temp, a, rotl32 30 b, c, d)

/-- Process one 64-byte block, updating the five chaining words. -/
def processBlock (h : Nat × Nat × Nat × Nat × Nat) (block : List Nat) :
    Nat × Nat × Nat × Nat × Nat :=
  let ws16 := bytesToWords block
  let ws := (extendWords 64 ws16.reverse).reverse
  let s := sha1Rounds ((List.range 80).zip ws) h
  (((h.1 + s.1) % w32), ((h.2.1 + s.2.1) % w32), ((h.2.2.1 + s.2.2.1) % w32),
    ((h.2.2.2.1 + s.2.2.2.1) % w32), ((h.2.2.2.2 + s.2.2.2.2) % w32))

/-- Split a byte list into 64-byte chunks (fuel-driven so that it reduces). -/
def chunks64Aux : Nat → List Nat → List (List Nat)
  | 0, _ => []
  | fuel + 1, l => if l = [] then [] else l.take 64 :: chunks64Aux fuel (l.drop 64)

/-- Split a byte list into 64-byte chunks. -/
def chunks64 (l : List Nat) : List (List Nat) := chunks64Aux l.length l

/-- The 8-byte big-endian encoding of the 64-bit message bit length. -/
def bigEndian8 (n : Nat) : List Nat :=
  [n / 2 ^ 56 % 256, n / 2 ^ 48 % 256, n / 2 ^ 40 % 256, n / 2 ^ 32 % 256,
    n / 2 ^ 24 % 256, n / 2 ^ 16 % 256, n / 2 ^ 8 % 256, n % 256]

/-- SHA-1 padding: append `0x80`, zero bytes to 56 mod 64, then the bit length. -/
def sha1Pad (msg : List Nat) : List Nat :=
  let len := msg.length
  let z := (120 - ((len + 1) % 64)) % 64
  msg ++ [128] ++ List.replicate z 0 ++ bigEndian8 (8 * len)

/-- The five chaining words of the SHA-1 digest of `msg`. -/
def sha1Words (msg : List Nat) : Nat × Nat × Nat × Nat × Nat :=
  (chunks64 (sha1Pad msg)).foldl processBlock
    (0x67452301, 0xEFCDAB89, 0x98BADCFE, 0x10325476, 0xC3D2E1F0)

/-- Big-endian bytes of one 32-bit word. -/
def bytesOfWord (w : Nat) : List Nat :=
  [w / 2 ^ 24 % 256, w / 2 ^ 16 % 256, w / 2 ^ 8 % 256, w % 256]

/-- SHA-1 digest of `msg` as a list of 20 bytes
(embedding of `openssl::sha::sha1`). -/
def sha1 (msg : List Nat) : List Nat :=
  bytesOfWord (sha1Words msg).1 ++ bytesOfWord (sha1Words msg).2.1 ++
    bytesOfWord (sha1Words msg).2.2.1 ++ bytesOfWord (sha1Words msg).2.2.2.1 ++
    bytesOfWord (sha1Words msg).2.2.2.2

/-! ### Leading-zero counting (rust.rs lines 84-93) -/

/-- `u8::leading_zeros` for a byte value. -/
def u8LeadingZeros (n : Nat) : Nat :=
  if 128 ≤ n then 0
  else if 64 ≤ n then 1
  else if 32 ≤ n then 2
  else if 16 ≤ n then 3
  else if 8 ≤ n then 4
  else if 4 ≤ n then 5
  else if 2 ≤ n then 6
  else if 1 ≤ n then 7
  else 8

/-- The `try_fold` of rust.rs lines 84-93: add 8 for every leading zero byte
and, at the first non-zero byte, add its `leading_zeros` and stop.
(The accumulator-threading of `try_fold` is unfolded into direct recursion;
`acc + 8` / `Err (acc + n.leading_zeros)` become the two branches below.) -/
def countLeadingZeros : List Nat → Nat
  | [] => 0
  | n :: rest => if n = 0 then 8 + countLeadingZeros rest else u8LeadingZeros n

/-! ### Candidate encoder (rust.rs lines 64-79) -/

/-- Outcome of encoding one candidate `value` into the suffix area of the
byte buffer:
* `panicked`: the write `bytes[nb_original_bytes + current_offset]` indexed
  past the end of the buffer of length `nb_original_bytes + max_padding`
  (a Rust index-out-of-bounds panic);
* `skipped`: a digit was one of the disallowed bytes 9, 10, 13, 32 and the
  candidate was abandoned via `continue 'main_loop`;
* `ok ds`: the digits `ds` were written at offsets `0, 1, …` in order, so
  the suffix appended to the base string is exactly `ds`. -/
inductive EncodeResult where
  | panicked : EncodeResult
  | skipped : EncodeResult
  | ok : List Nat → EncodeResult
deriving DecidableEq

/-- The disallowed digit test of rust.rs line 68
(`current_char == 9 || current_char == 10 || current_char == 13 || current_char == 32`). -/
def badByte (c : Nat) : Bool := c = 9 || c = 10 || c = 13 || c = 32

/-- The inner encoding loop of rust.rs lines 65-79, for one candidate.
Each step takes the low 7 bits `c = value &&& 127 = value % 128`, tests it
against the disallowed bytes, writes it at `current_offset = off` (the write
is in bounds iff `off < mp`, the buffer having `max_padding = mp` suffix
slots), shifts `value` right by 7 (`value / 128`), and stops when the shifted
value is zero.  The list returned by `ok` collects the bytes in the order
they are written.  The loop runs at most `value + 1` times, so the fuel
parameter (always instantiated with `value + 1` by `encodeValue`) never
reaches 0; the `fuel = 0` branch is dead code. -/
def encodeAux (mp : Nat) : Nat → Nat → Nat → EncodeResult
  | 0, _, _ => .skipped
  | fuel + 1, value, off =>
    if badByte (value % 128) then .skipped
    else if mp ≤ off then .panicked
    else if value / 128 = 0 then .ok [value % 128]
    else
      match encodeAux mp fuel (value / 128) (off + 1) with
      | .ok ds => .ok ((value % 128) :: ds)
      | r => r

/-- Encode candidate `value` starting at offset 0 with `max_padding = mp`
suffix slots (rust.rs lines 64-79). -/
def encodeValue (mp value : Nat) : EncodeResult := encodeAux mp (value + 1) value 0

/-! ### Worker loop (`generate_valid_string_one_thread`, rust.rs lines 29-134) -/

/-- `check_every` of rust.rs line 51. -/
def checkEvery : Nat := 10000000

/-- Result of one worker together with observable instrumentation of its run:
* `result`: the `Option<String>` return value (suffix as bytes);
* `iters`: the final value of the iteration counter `i`;
* `hashes`: how many times `sha1` was evaluated;
* `checks`: the iteration indices `i` at which `is_found` was read
  (rust.rs line 125), in order. -/
structure RunResult where
  result : Option (List Nat)
  iters : Nat
  hashes : Nat
  checks : List Nat
deriving DecidableEq

/-- The `'main_loop` of rust.rs lines 54-130 over the remaining candidate
values `vs` (the tail of `lower_limit..upper_limit`), with `i` iterations
already completed, `hashes` sha1 evaluations already performed, and `checks`
the flag reads already performed.  Per iteration: `i` is incremented; the
candidate is encoded (a disallowed digit `continue`s to the next value,
skipping the hash, the success test and the flag check; an out-of-bounds
write is a panic, `Except.error`); otherwise the hash of
`base ++ digits` is taken and its leading zeros compared against
`nb_zeros * BITS_IN_HEX` (`BITS_IN_HEX = 4`); on success the suffix is
returned (the store to `is_found` and the diagnostics printing have no
observable effect in this model); otherwise, when `(i - 1) % check_every = 0`,
the flag is read — if it is observed `true` the worker returns `None`
immediately, else the loop continues. -/
def workerLoop (base : List Nat) (nbZeros mp : Nat) (flags : Nat → Bool) :
    List Nat → Nat → Nat → List Nat → Except Unit RunResult
  | [], i, hashes, checks => .ok ⟨none, i, hashes, checks⟩
  | value :: rest, i, hashes, checks =>
    match encodeValue mp value with
    | .panicked => .error ()
    | .skipped => workerLoop base nbZeros mp flags rest (i + 1) hashes checks
    | .ok ds =>
      if nbZeros * 4 ≤ countLeadingZeros (sha1 (base ++ ds)) then
        .ok ⟨some ds, i + 1, hashes + 1, checks⟩
      else if (i + 1 - 1) % checkEvery = 0 then
        if flags (i + 1) then .ok ⟨none, i + 1, hashes + 1, checks ++ [i + 1]⟩
        else workerLoop base nbZeros mp flags rest (i + 1) (hashes + 1) (checks ++ [i + 1])
      else workerLoop base nbZeros mp flags rest (i + 1) (hashes + 1) checks

/-- `generate_valid_string_one_thread` (rust.rs lines 29-134): run the worker
loop over `lower_limit..upper_limit` starting from a fresh counter. -/
def generate_valid_string_one_thread (base : List Nat) (nbZeros mp lower upper : Nat)
    (flags : Nat → Bool) : Except Unit RunResult :=
  workerLoop base nbZeros mp flags (List.range' lower (upper - lower)) 0 0 []

/-! ### Coordinator (`generate_valid_string`, rust.rs lines 145-203) -/

/-- `nb_element_thread` (rust.rs line 167): `Integer::div_floor(&max_value, &nb_threads)`.
(In Rust this expression is evaluated inside each spawned thread, so for
`nb_threads = 0` it is never evaluated; Lean's total `/` returns 0 there,
equally unobservable because no worker runs.) -/
def nbElementThread (maxValue nbThreads : Nat) : Nat := maxValue / nbThreads

/-- `lower_limit` of worker `k` (rust.rs line 168). -/
def workerLower (maxValue nbThreads k : Nat) : Nat := k * nbElementThread maxValue nbThreads

/-- `upper_limit` of worker `k` (rust.rs lines 169-174): note the source
condition is `nb_thread != nb_threads`, which holds for every spawned worker
(`nb_thread` ranges over `0..nb_threads`), so the `else` branch assigning
`max_value` is dead code. -/
def workerUpper (maxValue nbThreads k : Nat) : Nat :=
  if k ≠ nbThreads then (k + 1) * nbElementThread maxValue nbThreads else maxValue

/-- Whether candidate `v` falls into the range of some worker `k < nbThreads`. -/
def covered (maxValue nbThreads v : Nat) : Bool :=
  (List.range nbThreads).any fun k =>
    workerLower maxValue nbThreads k ≤ v && v < workerUpper maxValue nbThreads k

/-- `max_padding` (rust.rs line 153):
`((16u128.pow(nb_zeros) as f64).ln() / 7f64.ln()).ceil() as u32`.
Over the reals `⌈ln (16 ^ d) / ln 7⌉ = ⌈log_7 (16 ^ d)⌉` is the least `n`
with `16 ^ d ≤ 7 ^ n` (the two never coincide at an integer because `16 ^ d`
is a power of two), and `16 ^ d = 2 ^ (4 d)` is exactly representable in
`f64` for every `d` small enough for `16u128.pow` not to overflow, so the
floating-point expression computes exactly this integer; it is embedded by
that characterization, made executable with `List.find?` (the least `n` is
at most `2 * d` since `7 ^ (2 * d) = 49 ^ d ≥ 16 ^ d`). -/
def maxPadding (nbZeros : Nat) : Nat :=
  ((List.range (2 * nbZeros + 1)).find? fun n => 16 ^ nbZeros ≤ 7 ^ n).getD (2 * nbZeros)

/-- One step of the join loop (rust.rs lines 193-197): `handle.join().unwrap()`
propagates a worker panic, and `if let Some(string) = … { output = Some(string) }`
overwrites the output with each non-empty worker result. -/
def joinStep (base : List Nat) (nbZeros mp maxValue nbThreads : Nat)
    (flags : Nat → Nat → Bool) (acc : Except Unit (Option (List Nat))) (k : Nat) :
    Except Unit (Option (List Nat)) :=
  match acc with
  | .error e => .error e
  | .ok out =>
    match generate_valid_string_one_thread base nbZeros mp
        (workerLower maxValue nbThreads k) (workerUpper maxValue nbThreads k)
        (flags k) with
    | .error e => .error e
    | .ok r =>
      match r.result with
      | some s => .ok (some s)
      | none => .ok out

/-- `generate_valid_string` (rust.rs lines 145-203): compute `max_padding`
and `max_value = 128 ^ max_padding`, run one worker per `nb_thread` in
`0..nb_threads` on its range, and join them in spawn order, overwriting the
output with each `Some` result (so the last successful worker in join order
wins); a panicked worker makes `handle.join().unwrap()` panic, modelled as
`Except.error`.  `flags k` is the flag-observation schedule of worker `k`. -/
def generate_valid_string (base : List Nat) (nbZeros nbThreads : Nat)
    (flags : Nat → Nat → Bool) : Except Unit (Option (List Nat)) :=
  (List.range nbThreads).foldl
    (joinStep base nbZeros (maxPadding nbZeros) (128 ^ maxPadding nbZeros) nbThreads flags)
    (.ok none)

/-! ### Specification-side helper functions (used only to state properties) -/

/-- Decode a least-significant-digit-first base-128 digit list back to the
integer it represents (the reverse reading of the encoder, spec §4.1). -/
def decode128 (ds : List Nat) : Nat := ds.foldr (fun d acc => d + 128 * acc) 0

/-- The base-128 digit list of `v`, least-significant first (one digit `[v]`
when `v < 128`); fuel-driven so that it reduces, the fuel `v + 1` of
`digits128` always suffices. -/
def digits128Aux : Nat → Nat → List Nat
  | 0, _ => []
  | fuel + 1, v => if v < 128 then [v] else v % 128 :: digits128Aux fuel (v / 128)

/-- The base-128 digit list of `v`, least-significant first. -/
def digits128 (v : Nat) : List Nat := digits128Aux (v + 1) v

/-- Whether the base-128 encoding of `v` contains one of the disallowed
bytes 9, 10, 13, 32. -/
def hasBadDigit (v : Nat) : Bool := (digits128 v).any badByte

/-- Observable summary of a worker run: `none` when the worker panicked,
otherwise its returned suffix, its final iteration count, and the list of
iteration indices at which the cancellation flag was read. -/
def runSummary (e : Except Unit RunResult) : Option (Option (List Nat) × Nat × List Nat) :=
  match e with
  | .ok r => some (r.result, r.iters, r.checks)
  | .error _ => none

/-! ### Lemmas about the hash evaluator -/

/-- The digest always has 20 bytes. -/
theorem sha1_length (m : List Nat) : (sha1 m).length = 20 := by
  simp [sha1, bytesOfWord]

/-- A byte contributes at most 8 leading zero bits. -/
theorem u8LeadingZeros_le (n : Nat) : u8LeadingZeros n ≤ 8 := by
  unfold u8LeadingZeros
  split_ifs <;> omega

/-- The leading-zero count of a byte list is at most 8 bits per byte. -/
theorem countLeadingZeros_le (l : List Nat) : countLeadingZeros l ≤ 8 * l.length := by
  induction l with
  | nil => simp [countLeadingZeros]
  | cons n rest ih =>
    simp only [countLeadingZeros, List.length_cons]
    by_cases h : n = 0
    · rw [if_pos h]
      omega
    · rw [if_neg h]
      have := u8LeadingZeros_le n
      omega

/-- A SHA-1 digest has at most 160 leading zero bits. -/
theorem countLeadingZeros_sha1_le (m : List Nat) : countLeadingZeros (sha1 m) ≤ 160 := by
  have h := countLeadingZeros_le (sha1 m)
  rw [sha1_length] at h
  omega

/-! ### Lemmas about the candidate encoder -/

/-- The fuel argument of `encodeAux` is irrelevant once it exceeds `value`. -/
theorem encodeAux_fuel_congr (mp : Nat) :
    ∀ f g v off : Nat, v < f → v < g → encodeAux mp f v off = encodeAux mp g v off := by
  intro f
  induction f with
  | zero => intro g v off hf _; omega
  | succ f ih =>
    intro g v off hf hg
    cases g with
    | zero => omega
    | succ g =>
      simp only [encodeAux]
      by_cases hb : badByte (v % 128) = true
      · rw [if_pos hb, if_pos hb]
      · rw [if_neg hb, if_neg hb]
        by_cases hoff : mp ≤ off
        · rw [if_pos hoff, if_pos hoff]
        · rw [if_neg hoff, if_neg hoff]
          by_cases hz : v / 128 = 0
          · rw [if_pos hz, if_pos hz]
          · rw [if_neg hz, if_neg hz]
            have hlt : v / 128 < v := Nat.div_lt_self (by omega) (by omega)
            rw [ih g (v / 128) (off + 1) (by omega) (by omega)]

/-- The fuel argument of `digits128Aux` is irrelevant once it exceeds `v`. -/
theorem digits128Aux_fuel_congr :
    ∀ f g v : Nat, v < f → v < g → digits128Aux f v = digits128Aux g v := by
  intro f
  induction f with
  | zero => intro g v hf _; omega
  | succ f ih =>
    intro g v hf hg
    cases g with
    | zero => omega
    | succ g =>
      simp only [digits128Aux]
      by_cases hlt : v < 128
      · rw [if_pos hlt, if_pos hlt]
      · rw [if_neg hlt, if_neg hlt]
        have hdiv : v / 128 < v := Nat.div_lt_self (by omega) (by omega)
        rw [ih g (v / 128) (by omega) (by omega)]

/-- What a successful encoding produces: the digit list decodes back to the
candidate, is non-empty, has the minimal length of any base-128
representation, and every digit is a 7-bit, allowed byte. -/
theorem encodeAux_ok_spec (mp : Nat) :
    ∀ f v off ds, encodeAux mp f v off = .ok ds →
      decode128 ds = v ∧ ds ≠ [] ∧ v < 128 ^ ds.length ∧
        (ds.length = 1 ∨ 128 ^ (ds.length - 1) ≤ v) ∧
        ∀ d ∈ ds, d < 128 ∧ badByte d = false := by
  intro f
  induction f with
  | zero =>
    intro v off ds h
    exact absurd h (by simp [encodeAux])
  | succ f ih =>
    intro v off ds h
    simp only [encodeAux] at h
    by_cases hb : badByte (v % 128) = true
    · rw [if_pos hb] at h
      exact absurd h (by simp)
    · rw [if_neg hb] at h
      by_cases hoff : mp ≤ off
      · rw [if_pos hoff] at h
        exact absurd h (by simp)
      · rw [if_neg hoff] at h
        by_cases hz : v / 128 = 0
        · rw [if_pos hz] at h
          have hvlt : v < 128 := by
            have := (Nat.div_eq_zero_iff (by omega : 0 < 128)).mp hz
            omega
          have hds : ds = [v % 128] := by
            cases h
            rfl
          subst hds
          refine ⟨?_, by simp, ?_, Or.inl rfl, ?_⟩
          · simp [decode128, Nat.mod_eq_of_lt hvlt]
          · simpa using hvlt
          · intro d hd
            simp only [List.mem_singleton] at hd
            subst hd
            refine ⟨Nat.mod_lt _ (by omega), ?_⟩
            cases hbb : badByte (v % 128) with
            | false => rfl
            | true => exact absurd hbb hb
        · rw [if_neg hz] at h
          cases hrec : encodeAux mp f (v / 128) (off + 1) with
          | panicked => rw [hrec] at h; exact absurd h (by simp)
          | skipped => rw [hrec] at h; exact absurd h (by simp)
          | ok ds' =>
            rw [hrec] at h
            have hds : ds = (v % 128) :: ds' := by
              cases h
              rfl
            subst hds
            obtain ⟨hdec, hne, hlt, hmin, hmem⟩ := ih (v / 128) (off + 1) ds' hrec
            have hlen : 1 ≤ ds'.length := List.length_pos.mpr hne
            refine ⟨?_, by simp, ?_, ?_, ?_⟩
            · simp only [decode128, List.foldr_cons] at *
              rw [hdec]
              exact Nat.mod_add_div v 128
            · have : v < 128 ^ ds'.length * 128 :=
                (Nat.div_lt_iff_lt_mul (by omega : 0 < 128)).mp hlt
              simpa [List.length_cons, pow_succ] using this
            · right
              have h128 : 128 ≤ v := by
                by_contra hc
                exact hz (Nat.div_eq_of_lt (by omega))
              rcases hmin with h1 | h2
              · simpa [List.length_cons, h1] using h128
              · have : 128 ^ ds'.length ≤ v := by
                  calc 128 ^ ds'.length = 128 ^ (ds'.length - 1) * 128 := by
                        rw [← pow_succ]
                        congr 1
                        omega
                    _ ≤ v / 128 * 128 := Nat.mul_le_mul_right _ h2
                    _ ≤ v := Nat.div_mul_le_self v 128
                simpa [List.length_cons] using this
            · intro d hd
              rcases List.mem_cons.mp hd with hd | hd
              · subst hd
                refine ⟨Nat.mod_lt _ (by omega), ?_⟩
                cases hbb : badByte (v % 128) with
                | false => rfl
                | true => exact absurd hbb hb
              · exact hmem d hd

/-- A candidate that fits in the padded buffer is never encoded out of
bounds: with `off < mp` and `v < 128 ^ (mp - off)` the write at each offset
stays below `mp`. -/
theorem encodeAux_no_panic (mp : Nat) :
    ∀ f v off, v < 128 ^ (mp - off) → off < mp → encodeAux mp f v off ≠ .panicked := by
  intro f
  induction f with
  | zero =>
    intro v off _ _
    simp [encodeAux]
  | succ f ih =>
    intro v off hv hoff
    simp only [encodeAux]
    by_cases hb : badByte (v % 128) = true
    · rw [if_pos hb]
      simp
    · rw [if_neg hb, if_neg (by omega : ¬ mp ≤ off)]
      by_cases hz : v / 128 = 0
      · rw [if_pos hz]
        simp
      · rw [if_neg hz]
        have h128 : 128 ≤ v := by
          by_contra hc
          exact hz (Nat.div_eq_of_lt (by omega))
        have hgap : mp - off ≠ 1 := by
          intro h1
          rw [h1, pow_one] at hv
          omega
        have hoff' : off + 1 < mp := by omega
        have hv' : v / 128 < 128 ^ (mp - (off + 1)) := by
          have hrw : 128 ^ (mp - off) = 128 ^ (mp - (off + 1)) * 128 := by
            rw [← pow_succ]
            congr 1
            omega
          rw [hrw] at hv
          exact (Nat.div_lt_iff_lt_mul (by omega : 0 < 128)).mpr hv
        cases hrec : encodeAux mp f (v / 128) (off + 1) with
        | panicked => exact absurd hrec (ih (v / 128) (off + 1) hv' hoff')
        | skipped => simp
        | ok ds => simp

/-- A candidate one of whose base-128 digits is disallowed is skipped
(provided it fits in the buffer, so that no earlier digit can go out of
bounds first). -/
theorem encodeAux_skipped_of_bad (mp : Nat) :
    ∀ f v off, v < f → v < 128 ^ (mp - off) → off < mp →
      hasBadDigit v = true → encodeAux mp f v off = .skipped := by
  intro f
  induction f with
  | zero => intro v off hf _ _ _; omega
  | succ f ih =>
    intro v off hf hv hoff hbad
    unfold hasBadDigit digits128 at hbad
    simp only [encodeAux]
    by_cases hlt : v < 128
    · simp only [digits128Aux, if_pos hlt, List.any_cons, List.any_nil,
        Bool.or_false] at hbad
      rw [if_pos (by rwa [Nat.mod_eq_of_lt hlt])]
    · simp only [digits128Aux, if_neg hlt, List.any_cons] at hbad
      by_cases hb : badByte (v % 128) = true
      · rw [if_pos hb]
      · rw [if_neg hb]
        have hrest : (digits128Aux v (v / 128)).any badByte = true := by
          rcases Bool.or_eq_true_iff.mp hbad with h | h
          · exact absurd h hb
          · exact h
        have hdiv : v / 128 < v := Nat.div_lt_self (by omega) (by omega)
        have hbad' : hasBadDigit (v / 128) = true := by
          unfold hasBadDigit digits128
          rwa [digits128Aux_fuel_congr (v / 128 + 1) v (v / 128) (by omega) (by omega)]
        have hz : ¬ v / 128 = 0 := by
          intro h0
          have := Nat.div_eq_zero_iff (by omega : 0 < 128) |>.mp h0
          omega
        rw [if_neg (by omega : ¬ mp ≤ off), if_neg hz]
        have hgap : mp - off ≠ 1 := by
          intro h1
          rw [h1, pow_one] at hv
          omega
        have hoff' : off + 1 < mp := by omega
        have hv' : v / 128 < 128 ^ (mp - (off + 1)) := by
          have hrw : 128 ^ (mp - off) = 128 ^ (mp - (off + 1)) * 128 := by
            rw [← pow_succ]
            congr 1
            omega
          rw [hrw] at hv
          exact (Nat.div_lt_iff_lt_mul (by omega : 0 < 128)).mpr hv
        rw [ih (v / 128) (off + 1) (by omega) hv' hoff' hbad']

/-- `encodeValue` version of `encodeAux_ok_spec`. -/
theorem encodeValue_ok_spec (mp v : Nat) (ds : List Nat) (h : encodeValue mp v = .ok ds) :
    decode128 ds = v ∧ ds ≠ [] ∧ v < 128 ^ ds.length ∧
      (ds.length = 1 ∨ 128 ^ (ds.length - 1) ≤ v) ∧
      ∀ d ∈ ds, d < 128 ∧ badByte d = false :=
  encodeAux_ok_spec mp (v + 1) v 0 ds h

/-- `encodeValue` version of `encodeAux_no_panic`. -/
theorem encodeValue_no_panic (mp v : Nat) (hmp : 1 ≤ mp) (hv : v < 128 ^ mp) :
    encodeValue mp v ≠ .panicked := by
  have h := encodeAux_no_panic mp (v + 1) v 0 (by simpa using hv) (by omega)
  exact h

/-- `encodeValue` version of `encodeAux_skipped_of_bad`; the precondition
`0 < mp` is implied because a candidate with a disallowed digit is at
least 9. -/
theorem encodeValue_skipped_of_bad (mp v : Nat) (hv : v < 128 ^ mp)
    (hbad : hasBadDigit v = true) : encodeValue mp v = .skipped := by
  have hv9 : 9 ≤ v := by
    by_contra hc
    have h8 : v < 128 := by omega
    have : hasBadDigit v = badByte v := by
      unfold hasBadDigit digits128
      simp [digits128Aux, if_pos h8]
    rw [this] at hbad
    unfold badByte at hbad
    simp only [Bool.or_eq_true, decide_eq_true_eq] at hbad
    omega
  have hmp : 0 < mp := by
    by_contra hc
    have : mp = 0 := by omega
    rw [this, pow_zero] at hv
    omega
  exact encodeAux_skipped_of_bad mp (v + 1) v 0 (by omega) (by simpa using hv) hmp hbad

/-! ### Lemmas about the worker loop and the coordinator -/

/-- Whenever the worker loop returns a suffix, that suffix is the encoding of
one of its candidate values and its hash meets the difficulty predicate
(the only `Some`-returning exit is the success branch, which is guarded by
`count_leading_zeros >= nb_zeros * BITS_IN_HEX`). -/
theorem workerLoop_some (base : List Nat) (nbZeros mp : Nat) (flags : Nat → Bool) :
    ∀ (vs : List Nat) (i hashes : Nat) (checks : List Nat) (r : RunResult) (s : List Nat),
      workerLoop base nbZeros mp flags vs i hashes checks = .ok r →
      r.result = some s →
      (∃ v ∈ vs, encodeValue mp v = .ok s) ∧
        nbZeros * 4 ≤ countLeadingZeros (sha1 (base ++ s)) := by
  intro vs
  induction vs with
  | nil =>
    intro i hashes checks r s hrun hres
    simp only [workerLoop] at hrun
    cases hrun
    simp at hres
  | cons v rest ih =>
    intro i hashes checks r s hrun hres
    simp only [workerLoop] at hrun
    split at hrun
    · exact absurd hrun (by simp)
    · obtain ⟨⟨v', hv', henc'⟩, hbound⟩ := ih _ _ _ _ _ hrun hres
      exact ⟨⟨v', List.mem_cons_of_mem _ hv', henc'⟩, hbound⟩
    · rename_i ds henc
      split at hrun
      · rename_i hsucc
        cases hrun
        simp only [Option.some.injEq] at hres
        subst hres
        exact ⟨⟨v, List.mem_cons_self _ _, henc⟩, hsucc⟩
      · split at hrun
        · split at hrun
          · cases hrun
            simp at hres
          · obtain ⟨⟨v', hv', henc'⟩, hbound⟩ := ih _ _ _ _ _ hrun hres
            exact ⟨⟨v', List.mem_cons_of_mem _ hv', henc'⟩, hbound⟩
        · obtain ⟨⟨v', hv', henc'⟩, hbound⟩ := ih _ _ _ _ _ hrun hres
          exact ⟨⟨v', List.mem_cons_of_mem _ hv', henc'⟩, hbound⟩

/-- If the join fold ends with a suffix, some worker produced it. -/
theorem foldl_joinStep_some (base : List Nat) (nbZeros mp maxValue nbThreads : Nat)
    (flags : Nat → Nat → Bool) :
    ∀ (l : List Nat) (acc : Except Unit (Option (List Nat))) (s : List Nat),
      l.foldl (joinStep base nbZeros mp maxValue nbThreads flags) acc = .ok (some s) →
      acc = .ok (some s) ∨
        ∃ k ∈ l, ∃ r : RunResult,
          generate_valid_string_one_thread base nbZeros mp (workerLower maxValue nbThreads k)
            (workerUpper maxValue nbThreads k) (flags k) = .ok r ∧ r.result = some s := by
  intro l
  induction l with
  | nil =>
    intro acc s h
    exact Or.inl (by simpa using h)
  | cons k l' ih =>
    intro acc s h
    simp only [List.foldl_cons] at h
    rcases ih _ _ h with hstep | ⟨k', hk', r, hw, hres⟩
    · cases hacc : acc with
      | error e => rw [hacc] at hstep; simp [joinStep] at hstep
      | ok out =>
        rw [hacc] at hstep
        simp only [joinStep] at hstep
        split at hstep
        · exact absurd hstep (by simp)
        · rename_i r hw
          split at hstep
          · rename_i s' hres
            simp only [Except.ok.injEq, Option.some.injEq] at hstep
            subst hstep
            exact Or.inr ⟨k, List.mem_cons_self _ _, r, hw, hres⟩
          · rename_i hres
            simp only [Except.ok.injEq] at hstep
            subst hstep
            exact Or.inl rfl
    · exact Or.inr ⟨k', List.mem_cons_of_mem _ hk', r, hw, hres⟩

/-- A skipped candidate is a plain `continue`: the loop moves to the next
value with the iteration counter advanced and the hash count, the check
list and the eventual result unchanged — in particular no hash is computed
and no error is surfaced. -/
theorem workerLoop_cons_skipped (base : List Nat) (nbZeros mp : Nat) (flags : Nat → Bool)
    (v : Nat) (rest : List Nat) (i hashes : Nat) (checks : List Nat)
    (henc : encodeValue mp v = .skipped) :
    workerLoop base nbZeros mp flags (v :: rest) i hashes checks =
      workerLoop base nbZeros mp flags rest (i + 1) hashes checks := by
  simp [workerLoop, henc]

/-- Step equation: successful candidate. -/
theorem workerLoop_cons_success (base : List Nat) (nbZeros mp : Nat) (flags : Nat → Bool)
    (v : Nat) (rest : List Nat) (i hashes : Nat) (checks : List Nat) (ds : List Nat)
    (henc : encodeValue mp v = .ok ds)
    (hsucc : nbZeros * 4 ≤ countLeadingZeros (sha1 (base ++ ds))) :
    workerLoop base nbZeros mp flags (v :: rest) i hashes checks =
      .ok ⟨some ds, i + 1, hashes + 1, checks⟩ := by
  simp [workerLoop, henc, hsucc]

/-- Step equation: unsuccessful candidate away from a check position. -/
theorem workerLoop_cons_continue (base : List Nat) (nbZeros mp : Nat) (flags : Nat → Bool)
    (v : Nat) (rest : List Nat) (i hashes : Nat) (checks : List Nat) (ds : List Nat)
    (henc : encodeValue mp v = .ok ds)
    (hns : ¬ nbZeros * 4 ≤ countLeadingZeros (sha1 (base ++ ds)))
    (hchk : ¬ (i + 1 - 1) % checkEvery = 0) :
    workerLoop base nbZeros mp flags (v :: rest) i hashes checks =
      workerLoop base nbZeros mp flags rest (i + 1) (hashes + 1) checks := by
  have hchk' : ¬ i % checkEvery = 0 := by simpa using hchk
  simp [workerLoop, henc, hns, hchk']

/-- Step equation: check position, flag observed set — the worker returns
an empty result immediately. -/
theorem workerLoop_cons_check_stop (base : List Nat) (nbZeros mp : Nat) (flags : Nat → Bool)
    (v : Nat) (rest : List Nat) (i hashes : Nat) (checks : List Nat) (ds : List Nat)
    (henc : encodeValue mp v = .ok ds)
    (hns : ¬ nbZeros * 4 ≤ countLeadingZeros (sha1 (base ++ ds)))
    (hchk : (i + 1 - 1) % checkEvery = 0) (hfl : flags (i + 1) = true) :
    workerLoop base nbZeros mp flags (v :: rest) i hashes checks =
      .ok ⟨none, i + 1, hashes + 1, checks ++ [i + 1]⟩ := by
  have hchk' : i % checkEvery = 0 := by simpa using hchk
  simp [workerLoop, henc, hns, hchk', hfl]

/-- Step equation: check position, flag observed clear. -/
theorem workerLoop_cons_check_go (base : List Nat) (nbZeros mp : Nat) (flags : Nat → Bool)
    (v : Nat) (rest : List Nat) (i hashes : Nat) (checks : List Nat) (ds : List Nat)
    (henc : encodeValue mp v = .ok ds)
    (hns : ¬ nbZeros * 4 ≤ countLeadingZeros (sha1 (base ++ ds)))
    (hchk : (i + 1 - 1) % checkEvery = 0) (hfl : flags (i + 1) = false) :
    workerLoop base nbZeros mp flags (v :: rest) i hashes checks =
      workerLoop base nbZeros mp flags rest (i + 1) (hashes + 1) (checks ++ [i + 1]) := by
  have hchk' : i % checkEvery = 0 := by simpa using hchk
  simp [workerLoop, henc, hns, hchk', hfl]

/-- A run whose difficulty is unreachable (more than the 160 bits a digest
has) and in which every candidate sitting at a check position is skipped by
the encoder performs no flag check at all and completes its whole range. -/
theorem workerLoop_no_check (base : List Nat) (nbZeros mp : Nat) (flags : Nat → Bool)
    (hdiff : 161 ≤ nbZeros * 4) :
    ∀ (vs : List Nat) (i hashes : Nat) (checks : List Nat),
      (∀ v ∈ vs, encodeValue mp v ≠ .panicked) →
      (∀ (k : Nat) (hk : k < vs.length), (i + k) % checkEvery = 0 →
        encodeValue mp (vs.get ⟨k, hk⟩) = .skipped) →
      ∃ h', workerLoop base nbZeros mp flags vs i hashes checks =
        .ok ⟨none, i + vs.length, h', checks⟩ := by
  intro vs
  induction vs with
  | nil =>
    intro i hashes checks _ _
    exact ⟨hashes, by simp [workerLoop]⟩
  | cons v rest ih =>
    intro i hashes checks hnp hskip
    cases henc : encodeValue mp v with
    | panicked => exact absurd henc (hnp v (List.mem_cons_self _ _))
    | skipped =>
      rw [workerLoop_cons_skipped base nbZeros mp flags v rest i hashes checks henc]
      obtain ⟨h', hrun⟩ := ih (i + 1) hashes checks
        (fun v' hv' => hnp v' (List.mem_cons_of_mem _ hv'))
        (fun k hk hmod => by
          have h := hskip (k + 1) (by simpa using Nat.succ_lt_succ hk)
            (by rw [show i + (k + 1) = i + 1 + k by omega]; exact hmod)
          simpa using h)
      refine ⟨h', ?_⟩
      rw [hrun]
      have : i + 1 + rest.length = i + (v :: rest).length := by
        simp [List.length_cons]
        omega
      rw [this]
    | ok ds =>
      have hns : ¬ nbZeros * 4 ≤ countLeadingZeros (sha1 (base ++ ds)) := by
        intro hle
        have := countLeadingZeros_sha1_le (base ++ ds)
        omega
      have hchk : ¬ (i + 1 - 1) % checkEvery = 0 := by
        intro h0
        have h := hskip 0 (by simp) (by simpa using h0)
        simp only [List.get] at h
        rw [henc] at h
        exact absurd h (by simp)
      rw [workerLoop_cons_continue base nbZeros mp flags v rest i hashes checks ds henc hns hchk]
      obtain ⟨h', hrun⟩ := ih (i + 1) (hashes + 1) checks
        (fun v' hv' => hnp v' (List.mem_cons_of_mem _ hv'))
        (fun k hk hmod => by
          have h := hskip (k + 1) (by simpa using Nat.succ_lt_succ hk)
            (by rw [show i + (k + 1) = i + 1 + k by omega]; exact hmod)
          simpa using h)
      refine ⟨h', ?_⟩
      rw [hrun]
      have : i + 1 + rest.length = i + (v :: rest).length := by
        simp [List.length_cons]
        omega
      rw [this]

/-- Every flag read of a worker run happens at an iteration `j` with
`(j - 1) % check_every = 0`, and a read that observes the flag set ends the
run immediately at that very iteration with an empty result. -/
theorem workerLoop_checks (base : List Nat) (nbZeros mp : Nat) (flags : Nat → Bool) :
    ∀ (vs : List Nat) (i hashes : Nat) (checks : List Nat) (r : RunResult),
      workerLoop base nbZeros mp flags vs i hashes checks = .ok r →
      (∀ j ∈ checks, (j - 1) % checkEvery = 0 ∧ flags j = false) →
      ∀ j ∈ r.checks,
        (j - 1) % checkEvery = 0 ∧ (flags j = true → r.result = none ∧ r.iters = j) := by
  intro vs
  induction vs with
  | nil =>
    intro i hashes checks r hrun hinv j hj
    simp only [workerLoop] at hrun
    cases hrun
    simp only at hj
    obtain ⟨h1, h2⟩ := hinv j hj
    exact ⟨h1, fun ht => absurd ht (by simp [h2])⟩
  | cons v rest ih =>
    intro i hashes checks r hrun hinv j hj
    cases henc : encodeValue mp v with
    | panicked =>
      rw [show workerLoop base nbZeros mp flags (v :: rest) i hashes checks = .error () from
        by simp [workerLoop, henc]] at hrun
      exact absurd hrun (by simp)
    | skipped =>
      rw [workerLoop_cons_skipped base nbZeros mp flags v rest i hashes checks henc] at hrun
      exact ih (i + 1) hashes checks r hrun hinv j hj
    | ok ds =>
      by_cases hsucc : nbZeros * 4 ≤ countLeadingZeros (sha1 (base ++ ds))
      · rw [workerLoop_cons_success base nbZeros mp flags v rest i hashes checks ds henc
          hsucc] at hrun
        cases hrun
        simp only at hj
        obtain ⟨h1, h2⟩ := hinv j hj
        exact ⟨h1, fun ht => absurd ht (by simp [h2])⟩
      · by_cases hchk : (i + 1 - 1) % checkEvery = 0
        · cases hfl : flags (i + 1) with
          | true =>
            rw [workerLoop_cons_check_stop base nbZeros mp flags v rest i hashes checks ds henc
              hsucc hchk hfl] at hrun
            cases hrun
            simp only [List.mem_append, List.mem_singleton] at hj
            rcases hj with hj | hj
            · obtain ⟨h1, h2⟩ := hinv j hj
              exact ⟨h1, fun ht => absurd ht (by simp [h2])⟩
            · subst hj
              exact ⟨hchk, fun _ => ⟨rfl, rfl⟩⟩
          | false =>
            rw [workerLoop_cons_check_go base nbZeros mp flags v rest i hashes checks ds henc
              hsucc hchk hfl] at hrun
            refine ih (i + 1) (hashes + 1) (checks ++ [i + 1]) r hrun ?_ j hj
            intro j' hj'
            rcases List.mem_append.mp hj' with hj' | hj'
            · exact hinv j' hj'
            · simp only [List.mem_singleton] at hj'
              subst hj'
              exact ⟨hchk, hfl⟩
        · rw [workerLoop_cons_continue base nbZeros mp flags v rest i hashes checks ds henc
            hsucc hchk] at hrun
          exact ih (i + 1) (hashes + 1) checks r hrun hinv j hj

/-! ### Claims -/

/-- C1: for every call to `generate_valid_string (base, difficulty, worker_count)`
(over every cancellation-flag observation schedule) that returns a suffix `s`,
the leading-zero-bit count of the SHA-1 digest of `base ++ s` — 8 per leading
all-zero digest byte plus the leading zero bits of the first non-zero byte —
is at least `difficulty * 4`. -/
theorem C1_returned_suffix_meets_difficulty (base : List Nat) (nbZeros nbThreads : Nat)
    (flags : Nat → Nat → Bool) (s : List Nat)
    (h : generate_valid_string base nbZeros nbThreads flags = .ok (some s)) :
    nbZeros * 4 ≤ countLeadingZeros (sha1 (base ++ s)) := by
  unfold generate_valid_string at h
  rcases foldl_joinStep_some base nbZeros (maxPadding nbZeros) (128 ^ maxPadding nbZeros)
      nbThreads flags _ _ _ h with hacc | ⟨k, -, r, hw, hres⟩
  · exact absurd hacc (by simp)
  · unfold generate_valid_string_one_thread at hw
    exact (workerLoop_some base nbZeros (maxPadding nbZeros) (flags k) _ _ _ _ _ _ hw hres).2

/-- Witness for C1: on base `"a"` (byte 97) with difficulty 1 and one worker
the search returns the suffix `[0]`, and the digest of `[97, 0]` indeed has
at least 4 leading zero bits. -/
theorem C1_witness : 1 * 4 ≤ countLeadingZeros (sha1 ([97] ++ [0])) :=
  C1_returned_suffix_meets_difficulty [97] 1 1 (fun _ _ => false) [0] (by decide)

/-- C2 (refuted — code bug): with difficulty 1 (`max_value = 128 ^ maxPadding 1
= 16384`) and 3 workers, candidate 16383 lies in no worker's range: the
condition `nb_thread != nb_threads` of rust.rs line 170 holds for every
spawned worker (`nb_thread < nb_threads`), so the final worker's
`upper_limit` is `3 * 5461 = 16383`, not `max_value`, and the union of the
ranges has a gap at the top. -/
theorem C2_partition_gap :
    covered (128 ^ maxPadding 1) 3 16383 = false ∧
      16383 < 128 ^ maxPadding 1 ∧ workerUpper (128 ^ maxPadding 1) 3 2 = 16383 := by
  decide

/-- C3 (refuted — code bug): at difficulty 1 the code's `max_padding`
(which divides by `ln 7` instead of `ln 128`) is 2, yet 1 already satisfies
`128 ^ 1 ≥ 16 ^ 1`, so the computed value is not the smallest integer with
`128 ^ max_padding ≥ 16 ^ difficulty`. -/
theorem C3_maxPadding_not_minimal :
    maxPadding 1 = 2 ∧ 16 ^ 1 ≤ 128 ^ 1 ∧ 1 < maxPadding 1 := by
  decide

/-- C4 (refuted — code bug): at difficulty 0 `max_padding = 0` and
`max_value = 1`, so with two (or more) workers every range is
`[k * 0, (k + 1) * 0) = ∅` and the search returns the absent result, and
with one worker the single candidate 0 still emits one digit, the write
indexes past the zero-length suffix buffer, and the worker panics
(`Except.error`), poisoning the join.  In neither case is a present result
returned. -/
theorem C4_zero_difficulty_fails (base : List Nat) (flags : Nat → Nat → Bool) :
    generate_valid_string base 0 2 flags = .ok none ∧
      generate_valid_string base 0 1 flags = .error () :=
  ⟨rfl, rfl⟩

/-- C5 counterexample: at `max_padding = maxPadding 0 = 0` the candidate 0 —
which lies below `max_value = 128 ^ 0 = 1` — makes the encoder emit a digit
into a buffer with no suffix slot: the write is out of bounds (a panic),
refuting the claim that no out-of-bounds index is reachable for candidates
below `max_value`. -/
theorem C5_counterexample :
    encodeValue (maxPadding 0) 0 = .panicked ∧ (0 : Nat) < 128 ^ maxPadding 0 := by
  decide

/-- C5 as amended: provided `max_padding ≥ 1`, every candidate value below
`128 ^ max_padding` is encoded without any out-of-bounds write, and a
completed encoding emits at most `max_padding` digits. -/
theorem C5_amended (v mp : Nat) (ds : List Nat) (hmp : 1 ≤ mp) (hv : v < 128 ^ mp) :
    encodeValue mp v ≠ .panicked ∧ (encodeValue mp v = .ok ds → ds.length ≤ mp) := by
  refine ⟨encodeValue_no_panic mp v hmp hv, fun h => ?_⟩
  obtain ⟨-, hne, -, hmin, -⟩ := encodeValue_ok_spec mp v ds h
  have hlen : 1 ≤ ds.length := List.length_pos.mpr hne
  rcases hmin with h1 | h2
  · omega
  · by_contra hc
    have : 128 ^ mp ≤ 128 ^ (ds.length - 1) := Nat.pow_le_pow_right (by omega) (by omega)
    omega

/-- Witness for C5 as amended, at candidate 300 with `max_padding = 2`. -/
theorem C5_witness : encodeValue 2 300 ≠ EncodeResult.panicked :=
  (C5_amended 300 2 [44, 2] (by decide) (by decide)).1

/-- C6 counterexample: a call with `worker_count = 0` is not rejected: it
launches no worker and returns the ordinary absent result (`.ok none`),
exactly as an exhausted unsuccessful search would. -/
theorem C6_counterexample :
    generate_valid_string [] 1 0 (fun _ _ => false) = .ok none := by
  decide

/-- C6 as amended: for every base, difficulty and flag schedule, a call with
`worker_count = 0` performs no validation and no work: it spawns no worker
and returns the ordinary absent result (there is no `InvalidInput` error
channel in the signature at all). -/
theorem C6_amended (base : List Nat) (nbZeros : Nat) (flags : Nat → Nat → Bool) :
    generate_valid_string base nbZeros 0 flags = .ok none :=
  rfl

/-- C7: a completed encoding is the minimal-length base-128,
least-significant-digit-first representation: decoding (`Σ dᵢ · 128^i`)
recovers the candidate exactly, the digit list is non-empty (value 0 emits
exactly one zero digit), the value fits in `128 ^ length`, and no shorter
digit list could represent it (`length = 1` or `128 ^ (length - 1) ≤ value`). -/
theorem C7_encoder_roundtrip (v mp : Nat) (ds : List Nat)
    (h : encodeValue mp v = .ok ds) :
    decode128 ds = v ∧ ds ≠ [] ∧ v < 128 ^ ds.length ∧
      (ds.length = 1 ∨ 128 ^ (ds.length - 1) ≤ v) := by
  obtain ⟨h1, h2, h3, h4, -⟩ := encodeValue_ok_spec mp v ds h
  exact ⟨h1, h2, h3, h4⟩

/-- Witness for C7: candidate 300 encodes to `[44, 2]` and decodes back
(`44 + 2 · 128 = 300`). -/
theorem C7_witness : decode128 [44, 2] = 300 :=
  (C7_encoder_roundtrip 300 2 [44, 2] (by decide)).1

/-- C8: a candidate (below `max_value`, so that the buffer fits it) one of
whose base-128 digits is 9, 10, 13 or 32 is detected during encoding and
skipped, and the worker's loop steps to the next integer unchanged — the
hash count, the check list and the eventual outcome are untouched, so no
hash is computed for it and no error is surfaced. -/
theorem C8_bad_digit_skipped (v mp : Nat) (hv : v < 128 ^ mp)
    (hbad : hasBadDigit v = true) :
    encodeValue mp v = .skipped ∧
      ∀ (base : List Nat) (nbZeros : Nat) (flags : Nat → Bool) (rest : List Nat)
        (i hashes : Nat) (checks : List Nat),
        workerLoop base nbZeros mp flags (v :: rest) i hashes checks =
          workerLoop base nbZeros mp flags rest (i + 1) hashes checks := by
  have hskip := encodeValue_skipped_of_bad mp v hv hbad
  exact ⟨hskip, fun base nbZeros flags rest i hashes checks =>
    workerLoop_cons_skipped base nbZeros mp flags v rest i hashes checks hskip⟩

/-- Witness for C8: candidate 9 (single digit 9, a tab) is skipped. -/
theorem C8_witness : encodeValue 1 9 = EncodeResult.skipped :=
  (C8_bad_digit_skipped 9 1 (by decide) (by decide)).1

/-- C9 counterexample: a worker run over the `checkEvery = 10,000,000`
candidates `[9, 9 + 10^7)` at difficulty 41 (which no digest can meet, so
the range is fully iterated) performs `checkEvery` iterations and reads the
cancellation flag zero times — the only iteration `i` with
`(i - 1) % check_every = 0` is `i = 1`, whose candidate 9 is skipped, and
the `continue` jumps over the flag check — even though the flag is set
(`true`) throughout.  Hence a window of `K` consecutive iterations need not
contain any check, refuting the claimed once-per-window bound. -/
theorem C9_counterexample :
    runSummary (generate_valid_string_one_thread [] 41 20 9 (9 + checkEvery)
      (fun _ => true)) = some (none, checkEvery, []) := by
  unfold generate_valid_string_one_thread
  rw [show 9 + checkEvery - 9 = checkEvery from by omega]
  obtain ⟨h', hrun⟩ := workerLoop_no_check [] 41 20 (fun _ => true) (by norm_num)
    (List.range' 9 checkEvery) 0 0 []
    (fun v hv => by
      have hv' : v < 9 + checkEvery := (List.mem_range'_1.mp hv).2
      exact encodeValue_no_panic 20 v (by norm_num) (lt_of_lt_of_le hv' (by decide)))
    (fun k hk hmod => by
      have hklt : k < checkEvery := by rw [List.length_range'] at hk; exact hk
      have h1 : k % checkEvery = 0 := by rw [Nat.zero_add] at hmod; exact hmod
      have h2 : k % checkEvery = k := Nat.mod_eq_of_lt hklt
      have hk0 : k = 0 := by omega
      subst hk0
      have hget : (List.range' 9 checkEvery).get ⟨0, hk⟩ = 9 := by
        rw [List.get_eq_getElem, List.getElem_range'_1]
        rfl
      rw [hget]
      decide)
  have hlen : (0 : Nat) + (List.range' 9 checkEvery).length = checkEvery := by
    rw [List.length_range', Nat.zero_add]
  rw [hlen] at hrun
  rw [hrun]
  rfl

/-- C9 as amended: the flag is read only at iterations `j` with
`(j - 1) % check_every = 0` whose candidate was not skipped during encoding
(a skipped candidate bypasses the check, as the counterexample shows, so no
once-per-`K`-window guarantee and no `K - 1` bound on intervening hash
evaluations holds); and whenever a read observes the flag set, the worker
returns an empty result immediately, ending its run at that very
iteration. -/
theorem C9_amended (base : List Nat) (nbZeros mp lower upper : Nat) (flags : Nat → Bool)
    (r : RunResult)
    (h : generate_valid_string_one_thread base nbZeros mp lower upper flags = .ok r) :
    ∀ j ∈ r.checks, (j - 1) % checkEvery = 0 ∧
      (flags j = true → r.result = none ∧ r.iters = j) := by
  unfold generate_valid_string_one_thread at h
  exact workerLoop_checks base nbZeros mp flags _ _ _ _ _ h (by simp)

/-- Witness for C9 as amended: the three-candidate run `[0, 3)` at
unreachable difficulty 41 with the flag set reads the flag exactly at
iteration 1 and stops, and the theorem applies to it. -/
theorem C9_witness : (1 - 1) % checkEvery = 0 :=
  (C9_amended [] 41 2 0 3 (fun _ => true) ⟨none, 1, 1, [1]⟩ (by decide) 1 (by decide)).1

/-- C10: every byte the encoder emits is `value &&& 127 < 128`, so any
suffix the search returns is 7-bit ASCII — the byte slice passed to
`String::from_utf8(...).unwrap()` is always valid UTF-8 and the `unwrap`
cannot panic. -/
theorem C10_suffix_ascii (base : List Nat) (nbZeros nbThreads : Nat)
    (flags : Nat → Nat → Bool) (s : List Nat)
    (h : generate_valid_string base nbZeros nbThreads flags = .ok (some s)) :
    s.all (fun d => d < 128) = true := by
  unfold generate_valid_string at h
  rcases foldl_joinStep_some base nbZeros (maxPadding nbZeros) (128 ^ maxPadding nbZeros)
      nbThreads flags _ _ _ h with hacc | ⟨k, -, r, hw, hres⟩
  · exact absurd hacc (by simp)
  · unfold generate_valid_string_one_thread at hw
    obtain ⟨⟨v, -, henc⟩, -⟩ :=
      workerLoop_some base nbZeros (maxPadding nbZeros) (flags k) _ _ _ _ _ _ hw hres
    obtain ⟨-, -, -, -, hmem⟩ := encodeValue_ok_spec (maxPadding nbZeros) v s henc
    simp only [List.all_eq_true, decide_eq_true_eq]
    exact fun d hd => (hmem d hd).1

/-- Witness for C10: the suffix `[0]` returned on base `"a"` at difficulty 1
is 7-bit ASCII. -/
theorem C10_witness : [0].all (fun d => d < 128) = true :=
  C10_suffix_ascii [97] 1 1 (fun _ _ => false) [0] (by decide)

end Cracker
